import Mathlib

/-!
Shallow embedding of `src/crossannotate.py` (OrthoMap-DIAMOND), the
bidirectional-best-hit table merger, together with proofs about the claims
of its specification.

Modelling conventions:
* DIAMOND's tabular output lines are modelled as already-parsed `Hit` records
  (the nine `--outfmt 6` fields); CSV serialisation itself is abstracted away.
* Python/numpy floating-point numbers (bitscores, identities, the `0.85`
  classifier threshold) are modelled as exact rationals `ℚ`; IEEE division by
  zero is modelled explicitly by `PdFloat` (value / +inf / -inf / NaN), which
  is how a pandas integer column division behaves.
* `pandas.read_csv` raises `EmptyDataError` on empty input text even when
  `names=` is supplied; this is modelled by `read_csv_hits` returning
  `Except.error` on an empty line list.
* `DataFrame.sort_values(col, ascending=False)` is implemented by pandas as an
  ascending argsort followed by reversal of the indexer (`nargsort`); for the
  list sizes where numpy's default kind is its stable insertion sort this is
  exactly `reverse ∘ stable ascending sort`, which is the model used here.
* `drop_duplicates('qseqid')` keeps the first row of each `qseqid` in the
  current row order (pandas default `keep='first'`).
* `pd.merge(..., how='inner')` on columns preserves the left frame's row
  order; it is modelled by a left-to-right nested-loop join.
-/

namespace CrossAnnotate

/-- One parsed line of DIAMOND `--outfmt 6` output with the field list
`qseqid sseqid pident length qlen slen evalue bitscore qcovhsp`
(`src/crossannotate.py` line 65). -/
structure Hit where
  qseqid : String
  sseqid : String
  pident : ℚ
  length : ℕ
  qlen : ℕ
  slen : ℕ
  evalue : ℚ
  bitscore : ℚ
  qcovhsp : ℚ
deriving DecidableEq, Repr

/-- The DNA alphabet used by `detect_seq_type`: `set("ATGCN")`. -/
def dna_chars : List Char := ['A', 'T', 'G', 'C', 'N']

/-- Python's `str.upper()` restricted to per-character case mapping (which is
what it does on the ASCII alphabets involved here). -/
def upperStr (s : String) : String :=
  String.mk (s.toList.map Char.toUpper)

/-- The sample string built by `detect_seq_type`
(`"".join(df[col_name].dropna().head(10).astype(str)).upper()`): the column is
modelled as a list of optional strings, `dropna` as `filterMap id`, `head(10)`
as `take 10`. -/
def sampleOf (col : List (Option String)) : String :=
  upperStr (String.join ((col.filterMap id).take 10))

/-- `sum(1 for char in sample if char in dna_chars)`. -/
def dnaCount (s : String) : ℕ :=
  (s.toList.filter (fun c => c ∈ dna_chars)).length

/-- `detect_seq_type` (`src/crossannotate.py` lines 8-21): empty sample
defaults to `"prot"`; otherwise `"dna"` iff the `{A,T,G,C,N}` fraction of the
sample strictly exceeds `0.85` (the float literal is modelled as the exact
rational `85/100`). -/
def detect_seq_type (col : List (Option String)) : String :=
  let sample := sampleOf col
  if sample = "" then "prot"
  else if ((dnaCount sample : ℚ) / (sample.length : ℚ)) > 85 / 100 then "dna"
  else "prot"

/-- The ascending bitscore relation used by the sort in
`sort_values('bitscore', ascending=False)`. -/
def bitLe (a b : Hit) : Prop := a.bitscore ≤ b.bitscore

instance : DecidableRel bitLe := fun a b =>
  inferInstanceAs (Decidable (a.bitscore ≤ b.bitscore))

instance : IsTotal Hit bitLe := ⟨fun a b => le_total a.bitscore b.bitscore⟩

instance : IsTrans Hit bitLe := ⟨fun _ _ _ hab hbc => le_trans hab hbc⟩

/-- `df.sort_values('bitscore', ascending=False)`
(`src/crossannotate.py` lines 82-83). pandas `nargsort` computes the
ascending argsort and reverses the indexer for `ascending=False`; with the
stable ascending sort modelled by `List.insertionSort` this is
`reverse ∘ stable ascending sort`. Note that exact bitscore ties therefore
end up in reverse input order. -/
def sort_values_desc (l : List Hit) : List Hit :=
  (List.insertionSort bitLe l).reverse

/-- Worker for `drop_duplicates`: keep each row whose `qseqid` was not seen
in an earlier kept-or-skipped position. -/
def drop_dup_aux (seen : List String) : List Hit → List Hit
  | [] => []
  | h :: t =>
      if h.qseqid ∈ seen then drop_dup_aux seen t
      else h :: drop_dup_aux (h.qseqid :: seen) t

/-- `df.drop_duplicates('qseqid')` (pandas default `keep='first'`): keep the
first row of each `qseqid` in the current row order. -/
def drop_duplicates (l : List Hit) : List Hit :=
  drop_dup_aux [] l

/-- The best-hit reduction applied to each search direction
(`src/crossannotate.py` lines 82-83):
`.sort_values('bitscore', ascending=False).drop_duplicates('qseqid')`. -/
def best_hit_index (l : List Hit) : List Hit :=
  drop_duplicates (sort_values_desc l)

/-- `pd.read_csv(io.StringIO(res), sep='\t', names=cols)` applied to captured
aligner stdout (`src/crossannotate.py` lines 82-83). pandas raises
`EmptyDataError` when the text holds no data at all, even with `names=`
supplied; otherwise parsing yields the list of hits. -/
def read_csv_hits (stdoutLines : List Hit) : Except String (List Hit) :=
  if stdoutLines.isEmpty then Except.error "EmptyDataError" else Except.ok stdoutLines

/-- The reciprocal merge (`src/crossannotate.py` line 86):
`pd.merge(df_ab, df_ba, left_on=['qseqid','sseqid'], right_on=['sseqid','qseqid'])`,
an inner equi-join keeping the left frame's row order, modelled as a
left-to-right nested-loop join. A merged row pairs one forward hit (the `_x`
columns) with one reverse hit (the `_y` columns). -/
def reciprocal_merge : List Hit → List Hit → List (Hit × Hit)
  | [], _ => []
  | ra :: t, ba =>
      ((ba.filter (fun rb => ra.qseqid == rb.sseqid && ra.sseqid == rb.qseqid)).map
        (fun rb => (ra, rb))) ++ reciprocal_merge t ba

/-- The value domain of a pandas float column: a finite value, one of the two
infinities, or NaN. -/
inductive PdFloat where
  | val : ℚ → PdFloat
  | inf : PdFloat
  | ninf : PdFloat
  | nan : PdFloat
deriving DecidableEq, Repr

/-- IEEE-754 division as performed by `final['len_a'] / final['len_b']` on
integer columns (numpy converts to float64 and divides): division by zero
silently yields ±infinity, `0/0` yields NaN, and no exception is raised. -/
def pd_div (a b : ℚ) : PdFloat :=
  if b = 0 then (if 0 < a then PdFloat.inf else if a < 0 then PdFloat.ninf else PdFloat.nan)
  else PdFloat.val (a / b)

/-- One row of the `final` frame (`src/crossannotate.py` lines 93-95): the
`_x` (forward-hit) columns projected and renamed, plus the derived
`len_ratio = len_a / len_b` column. -/
structure FinalRow where
  a_id : String
  b_id : String
  identity_pct : ℚ
  evalue : ℚ
  bitscore : ℚ
  len_a : ℕ
  len_b : ℕ
  cov_a_pct : ℚ
  len_ratio : PdFloat
deriving DecidableEq, Repr

/-- Builds one `final` row from one merged ortholog row
(`src/crossannotate.py` lines 93-95): all projected columns come from the
forward hit (`_x` suffix); `len_a = qlen_x`, `len_b = slen_x`,
`len_ratio = len_a / len_b` with pandas float-division semantics. -/
def mkFinalRow (p : Hit × Hit) : FinalRow :=
  { a_id := p.1.qseqid
    b_id := p.1.sseqid
    identity_pct := p.1.pident
    evalue := p.1.evalue
    bitscore := p.1.bitscore
    len_a := p.1.qlen
    len_b := p.1.slen
    cov_a_pct := p.1.qcovhsp
    len_ratio := pd_div (p.1.qlen : ℚ) (p.1.slen : ℚ) }

/-- The outcome of one captured directional DIAMOND search
(`subprocess.run(..., capture_output=True, text=True)`,
`src/crossannotate.py` lines 73 and 78): the process exit status and the
parsed stdout lines. No `check=True` is passed, so a nonzero exit status
does not raise. -/
structure SearchResult where
  exitCode : ℤ
  stdout : List Hit
deriving DecidableEq, Repr

/-- How a run of `run_diamond_bbh` ends, observed after the two directional
searches: an uncaught Python exception (process dies with a traceback), or a
normal termination with exit status 0 carrying the written output rows if an
output file was written at all (`final.to_csv`, line 105). -/
inductive RunOutcome where
  | exception : String → RunOutcome
  | success : Option (List FinalRow) → RunOutcome
deriving DecidableEq, Repr

/-- The tail of `run_diamond_bbh` after the two directional searches
(`src/crossannotate.py` lines 80-105, passthrough widening aside): parse each
direction's captured stdout (the exit codes are never consulted), reduce each
direction to its best-hit table, take the reciprocal merge; an empty merge
prints a warning and calls `sys.exit(0)` before any output file is written,
otherwise the projected `final` rows are written to the output file. -/
def run_after_search (res_ab res_ba : SearchResult) : RunOutcome :=
  match read_csv_hits res_ab.stdout with
  | Except.error e => RunOutcome.exception e
  | Except.ok ab =>
    match read_csv_hits res_ba.stdout with
    | Except.error e => RunOutcome.exception e
    | Except.ok ba =>
      let ortho := reciprocal_merge (best_hit_index ab) (best_hit_index ba)
      if ortho.isEmpty then RunOutcome.success none
      else RunOutcome.success (some (ortho.map mkFinalRow))

/-- A row of the first source table as seen by the passthrough merge
(`src/crossannotate.py` line 103): its `id_a` value and the rest of the
selected passthrough payload, collapsed to one string. -/
structure Df1Row where
  id : String
  anno : String
deriving DecidableEq, Repr

/-- `pd.merge(final, df1[...], on=id_a, how='left')`
(`src/crossannotate.py` line 103): for each left row, one output row per
matching right row, or a single row with missing (`NaN`, modelled `none`)
payload when no right row matches. Left row order is preserved. -/
def left_merge : List FinalRow → List Df1Row → List (FinalRow × Option String)
  | [], _ => []
  | fr :: t, df1 =>
      (let ms := df1.filter (fun r => r.id == fr.a_id)
       if ms.isEmpty then [(fr, (none : Option String))] else ms.map (fun r => (fr, some r.anno)))
        ++ left_merge t df1

/-- `anno_cols` as built on `src/crossannotate.py` line 102:
`[id_a] + [c.strip() for c in args.passthrough.split(',') if c.strip() in df1.columns]`
(the comma-splitting and stripping are abstracted: the spec list arrives
already split and stripped). -/
def anno_cols (id_a : String) (passthrough df1cols : List String) : List String :=
  id_a :: passthrough.filter (fun c => c ∈ df1cols)

/-- `e` is a possible result of Python's `list(set(l))`: some duplicate-free
enumeration of the members of `l`. Python string hashing is randomized per
process (`PYTHONHASHSEED`), so which enumeration comes out is not a function
of `l`. -/
def set_enum_of (l e : List String) : Prop :=
  e.Nodup ∧ ∀ x, x ∈ e ↔ x ∈ l

/-- The nine fixed columns of the `final` frame, in order
(`src/crossannotate.py` lines 93-95). -/
def final_core_cols (id_a id_b : String) : List String :=
  [id_a, id_b, "identity_pct", "evalue", "bitscore", "len_a", "len_b", "cov_a_pct", "len_ratio"]

/-- The column order of the widened output frame
(`src/crossannotate.py` line 103): `pd.merge(final, df1[enum], on=id_a)`
appends `df1[enum]`'s columns, minus the join key, in `enum`'s order after
`final`'s columns. -/
def merged_cols (id_a id_b : String) (enum : List String) : List String :=
  final_core_cols id_a id_b ++ enum.filter (fun c => c != id_a)

/-! ### Helper lemmas about the sort and the de-duplication -/

theorem sort_values_desc_pairwise (l : List Hit) :
    (sort_values_desc l).Pairwise (fun a b => b.bitscore ≤ a.bitscore) := by
  unfold sort_values_desc
  rw [List.pairwise_reverse]
  exact List.sorted_insertionSort bitLe l

theorem mem_sort_values_desc {l : List Hit} {x : Hit} :
    x ∈ sort_values_desc l ↔ x ∈ l := by
  unfold sort_values_desc
  rw [List.mem_reverse, List.mem_insertionSort]

theorem mem_of_mem_drop_dup_aux :
    ∀ {seen : List String} {l : List Hit} {x : Hit}, x ∈ drop_dup_aux seen l → x ∈ l := by
  intro seen l
  induction l generalizing seen with
  | nil => intro x hx; simp [drop_dup_aux] at hx
  | cons h t ih =>
    intro x hx
    simp only [drop_dup_aux] at hx
    by_cases hs : h.qseqid ∈ seen
    · rw [if_pos hs] at hx
      exact List.mem_cons_of_mem _ (ih hx)
    · rw [if_neg hs] at hx
      rcases List.mem_cons.1 hx with rfl | hx
      · exact List.mem_cons_self _ _
      · exact List.mem_cons_of_mem _ (ih hx)

theorem qseqid_not_seen_of_mem_drop_dup_aux :
    ∀ {seen : List String} {l : List Hit} {x : Hit},
      x ∈ drop_dup_aux seen l → x.qseqid ∉ seen := by
  intro seen l
  induction l generalizing seen with
  | nil => intro x hx; simp [drop_dup_aux] at hx
  | cons h t ih =>
    intro x hx
    simp only [drop_dup_aux] at hx
    by_cases hs : h.qseqid ∈ seen
    · rw [if_pos hs] at hx
      exact ih hx
    · rw [if_neg hs] at hx
      rcases List.mem_cons.1 hx with rfl | hx
      · exact hs
      · intro hmem
        exact ih hx (List.mem_cons_of_mem _ hmem)

theorem drop_dup_aux_nodup :
    ∀ {seen : List String} {l : List Hit},
      ((drop_dup_aux seen l).map (fun x => x.qseqid)).Nodup := by
  intro seen l
  induction l generalizing seen with
  | nil => simp [drop_dup_aux]
  | cons h t ih =>
    simp only [drop_dup_aux]
    by_cases hs : h.qseqid ∈ seen
    · rw [if_pos hs]; exact ih
    · rw [if_neg hs]
      simp only [List.map_cons, List.nodup_cons]
      refine ⟨?_, ih⟩
      intro hmem
      rcases List.mem_map.1 hmem with ⟨y, hy, hyq⟩
      exact qseqid_not_seen_of_mem_drop_dup_aux hy (by rw [hyq]; exact List.mem_cons_self _ _)

theorem drop_dup_aux_complete :
    ∀ {seen : List String} {l : List Hit} {x : Hit},
      x ∈ l → x.qseqid ∉ seen → ∃ y ∈ drop_dup_aux seen l, y.qseqid = x.qseqid := by
  intro seen l
  induction l generalizing seen with
  | nil => intro x hx; simp at hx
  | cons h t ih =>
    intro x hx hseen
    simp only [drop_dup_aux]
    by_cases hs : h.qseqid ∈ seen
    · rw [if_pos hs]
      rcases List.mem_cons.1 hx with rfl | hx
      · exact absurd hs hseen
      · exact ih hx hseen
    · rw [if_neg hs]
      by_cases hq : x.qseqid = h.qseqid
      · exact ⟨h, List.mem_cons_self _ _, hq.symm⟩
      · rcases List.mem_cons.1 hx with rfl | hx
        · exact absurd rfl hq
        · rcases ih hx (by
            intro hmem
            rcases List.mem_cons.1 hmem with heq | hmem2
            · exact hq heq
            · exact hseen hmem2) with ⟨y, hy, hyq⟩
          exact ⟨y, List.mem_cons_of_mem _ hy, hyq⟩

theorem drop_dup_aux_max :
    ∀ {seen : List String} {l : List Hit} {x x' : Hit},
      l.Pairwise (fun a b => b.bitscore ≤ a.bitscore) →
      x ∈ drop_dup_aux seen l → x' ∈ l → x'.qseqid = x.qseqid →
      x'.bitscore ≤ x.bitscore := by
  intro seen l
  induction l generalizing seen with
  | nil => intro x x' _ hx; simp [drop_dup_aux] at hx
  | cons h t ih =>
    intro x x' hp hx hx' hq
    rcases List.pairwise_cons.1 hp with ⟨hhead, htail⟩
    simp only [drop_dup_aux] at hx
    by_cases hs : h.qseqid ∈ seen
    · rw [if_pos hs] at hx
      rcases List.mem_cons.1 hx' with rfl | hx'
      · exact absurd (hq ▸ hs) (qseqid_not_seen_of_mem_drop_dup_aux hx)
      · exact ih htail hx hx' hq
    · rw [if_neg hs] at hx
      rcases List.mem_cons.1 hx with rfl | hx
      · rcases List.mem_cons.1 hx' with rfl | hx'
        · exact le_refl _
        · exact hhead x' hx'
      · rcases List.mem_cons.1 hx' with rfl | hx'
        · have : x.qseqid ∉ x'.qseqid :: seen := qseqid_not_seen_of_mem_drop_dup_aux hx
          exact absurd (by rw [hq]; exact List.mem_cons_self _ _) this
        · exact ih htail hx hx' hq

/-! ### Helper lemmas about `best_hit_index` -/

theorem mem_of_mem_best_hit_index {l : List Hit} {x : Hit} (hx : x ∈ best_hit_index l) :
    x ∈ l :=
  mem_sort_values_desc.1 (mem_of_mem_drop_dup_aux hx)

theorem best_hit_index_nodup (l : List Hit) :
    ((best_hit_index l).map (fun x => x.qseqid)).Nodup :=
  drop_dup_aux_nodup

theorem best_hit_index_complete {l : List Hit} {x : Hit} (hx : x ∈ l) :
    ∃ y ∈ best_hit_index l, y.qseqid = x.qseqid :=
  drop_dup_aux_complete (mem_sort_values_desc.2 hx) (List.not_mem_nil _)

theorem best_hit_index_max {l : List Hit} {x x' : Hit}
    (hx : x ∈ best_hit_index l) (hx' : x' ∈ l) (hq : x'.qseqid = x.qseqid) :
    x'.bitscore ≤ x.bitscore :=
  drop_dup_aux_max (sort_values_desc_pairwise l) hx (mem_sort_values_desc.2 hx') hq

/-! ### Helper lemmas about the reciprocal merge -/

/-- Looking a query id up in a best-hit table: the row returned for `fwd[a]`. -/
def hit_for (idx : List Hit) (q : String) : Option Hit :=
  idx.find? (fun x => x.qseqid == q)

theorem hit_for_eq_of_nodup :
    ∀ {idx : List Hit} {h : Hit},
      ((idx.map (fun x => x.qseqid)).Nodup) → h ∈ idx →
      hit_for idx h.qseqid = some h := by
  intro idx
  induction idx with
  | nil => intro h _ hmem; simp at hmem
  | cons a t ih =>
    intro h hnd hmem
    simp only [List.map_cons, List.nodup_cons] at hnd
    rcases List.mem_cons.1 hmem with rfl | hmem
    · simp [hit_for, List.find?]
    · have hne : a.qseqid ≠ h.qseqid := by
        intro heq
        exact hnd.1 (heq ▸ List.mem_map.2 ⟨h, hmem, rfl⟩)
      have hfalse : ¬ ((a.qseqid == h.qseqid) = true) := by simpa using hne
      unfold hit_for
      rw [List.find?_cons_of_neg (p := fun x => x.qseqid == h.qseqid) t hfalse]
      exact ih hnd.2 hmem

theorem reciprocal_merge_sound :
    ∀ {ab ba : List Hit} {p : Hit × Hit},
      p ∈ reciprocal_merge ab ba →
      p.1 ∈ ab ∧ p.2 ∈ ba ∧ p.1.qseqid = p.2.sseqid ∧ p.1.sseqid = p.2.qseqid := by
  intro ab ba
  induction ab with
  | nil => intro p hp; simp [reciprocal_merge] at hp
  | cons ra t ih =>
    intro p hp
    simp only [reciprocal_merge, List.mem_append] at hp
    rcases hp with hp | hp
    · rcases List.mem_map.1 hp with ⟨rb, hrb, rfl⟩
      rcases List.mem_filter.1 hrb with ⟨hrbmem, hcond⟩
      have hc : ra.qseqid = rb.sseqid ∧ ra.sseqid = rb.qseqid := by simpa using hcond
      exact ⟨List.mem_cons_self _ _, hrbmem, hc.1, hc.2⟩
    · rcases ih hp with ⟨h1, h2, h3, h4⟩
      exact ⟨List.mem_cons_of_mem _ h1, h2, h3, h4⟩

theorem reciprocal_merge_complete :
    ∀ {ab ba : List Hit} {ha hb : Hit},
      ha ∈ ab → hb ∈ ba → ha.qseqid = hb.sseqid → ha.sseqid = hb.qseqid →
      (ha, hb) ∈ reciprocal_merge ab ba := by
  intro ab ba
  induction ab with
  | nil => intro ha hb hmem; simp at hmem
  | cons ra t ih =>
    intro ha hb hmema hmemb h1 h2
    simp only [reciprocal_merge, List.mem_append]
    rcases List.mem_cons.1 hmema with rfl | hmema
    · left
      exact List.mem_map.2 ⟨hb, List.mem_filter.2 ⟨hmemb, by
        rw [Bool.and_eq_true, beq_iff_eq, beq_iff_eq]; exact ⟨h1, h2⟩⟩, rfl⟩
    · right
      exact ih hmema hmemb h1 h2

/-- At most one row of `ba` can satisfy the reciprocity filter for a fixed
forward row, when `ba` holds at most one row per `qseqid`. -/
theorem filter_reciprocal_length_le_one :
    ∀ {ba : List Hit} {ra : Hit},
      ((ba.map (fun x => x.qseqid)).Nodup) →
      (ba.filter (fun rb => ra.qseqid == rb.sseqid && ra.sseqid == rb.qseqid)).length ≤ 1 := by
  intro ba ra
  induction ba with
  | nil => intro _; simp
  | cons rb t ih =>
    intro hnd
    simp only [List.map_cons, List.nodup_cons] at hnd
    by_cases hc : (ra.qseqid == rb.sseqid && ra.sseqid == rb.qseqid) = true
    · rw [List.filter_cons_of_pos (p := fun (rb2 : Hit) => ra.qseqid == rb2.sseqid && ra.sseqid == rb2.qseqid) hc]
      have hempty : t.filter (fun rb2 => ra.qseqid == rb2.sseqid && ra.sseqid == rb2.qseqid) = [] := by
        rw [List.filter_eq_nil_iff]
        intro rb2 hrb2 hcond2
        have hq1 : ra.qseqid = rb.sseqid ∧ ra.sseqid = rb.qseqid := by simpa using hc
        have hq2 : ra.qseqid = rb2.sseqid ∧ ra.sseqid = rb2.qseqid := by simpa using hcond2
        have : rb.qseqid = rb2.qseqid := hq1.2.symm.trans hq2.2
        exact hnd.1 (this ▸ List.mem_map.2 ⟨rb2, hrb2, rfl⟩)
      rw [hempty]
      simp
    · rw [List.filter_cons_of_neg (p := fun (rb2 : Hit) => ra.qseqid == rb2.sseqid && ra.sseqid == rb2.qseqid) (by simpa using hc)]
      exact ih hnd.2

theorem nodup_of_length_le_one {α : Type} {l : List α} (h : l.length ≤ 1) : l.Nodup := by
  match l with
  | [] => exact List.nodup_nil
  | [a] => simp
  | a :: b :: t => simp at h

/-- At most one row of the first source table matches a given `a_id` when its
identifier values are duplicate-free. -/
theorem filter_df1_length_le_one :
    ∀ {df1 : List Df1Row} {a : String},
      ((df1.map (fun r => r.id)).Nodup) →
      (df1.filter (fun r => r.id == a)).length ≤ 1 := by
  intro df1 a
  induction df1 with
  | nil => intro _; simp
  | cons r t ih =>
    intro hnd
    simp only [List.map_cons, List.nodup_cons] at hnd
    by_cases hc : (r.id == a) = true
    · rw [List.filter_cons_of_pos (p := fun (r2 : Df1Row) => r2.id == a) hc]
      have hempty : t.filter (fun r2 => r2.id == a) = [] := by
        rw [List.filter_eq_nil_iff]
        intro r2 hr2 hcond2
        have h1 : r.id = a := by simpa using hc
        have h2 : r2.id = a := by simpa using hcond2
        exact hnd.1 ((h1.trans h2.symm) ▸ List.mem_map.2 ⟨r2, hr2, rfl⟩)
      rw [hempty]
      simp
    · rw [List.filter_cons_of_neg (p := fun (r2 : Df1Row) => r2.id == a) (by simpa using hc)]
      exact ih hnd.2

/-! ### Claim theorems -/

/-- C1: for every pair `(a, b)` produced by the reciprocal resolver (the merge
of the two best-hit tables, where `a = qseqid_x` and `b = sseqid_x`), the
forward best-hit index maps `a` to a hit with subject `b` and the reverse
best-hit index maps `b` to a hit with subject `a`; conversely, every `(a, b)`
satisfying both conditions is emitted. -/
theorem reciprocity_of_resolver (resA resB : List Hit) :
    (∀ p ∈ reciprocal_merge (best_hit_index resA) (best_hit_index resB),
        (∃ hf, hit_for (best_hit_index resA) p.1.qseqid = some hf ∧ hf.sseqid = p.1.sseqid) ∧
        (∃ hr, hit_for (best_hit_index resB) p.1.sseqid = some hr ∧ hr.sseqid = p.1.qseqid)) ∧
    (∀ a b : String,
        (∃ hf, hit_for (best_hit_index resA) a = some hf ∧ hf.sseqid = b) →
        (∃ hr, hit_for (best_hit_index resB) b = some hr ∧ hr.sseqid = a) →
        ∃ p ∈ reciprocal_merge (best_hit_index resA) (best_hit_index resB),
          p.1.qseqid = a ∧ p.1.sseqid = b) := by
  constructor
  · intro p hp
    rcases reciprocal_merge_sound hp with ⟨h1, h2, h3, h4⟩
    constructor
    · exact ⟨p.1, hit_for_eq_of_nodup (best_hit_index_nodup resA) h1, rfl⟩
    · refine ⟨p.2, ?_, h3.symm⟩
      rw [h4]
      exact hit_for_eq_of_nodup (best_hit_index_nodup resB) h2
  · rintro a b ⟨hf, hfind, hfs⟩ ⟨hr, hrfind, hrs⟩
    have hfmem : hf ∈ best_hit_index resA := List.mem_of_find?_eq_some hfind
    have hfq : hf.qseqid = a := by
      have := List.find?_some hfind
      simpa using this
    have hrmem : hr ∈ best_hit_index resB := List.mem_of_find?_eq_some hrfind
    have hrq : hr.qseqid = b := by
      have := List.find?_some hrfind
      simpa using this
    refine ⟨(hf, hr), ?_, hfq, hfs⟩
    exact reciprocal_merge_complete hfmem hrmem (by rw [hfq, hrs]) (by rw [hfs, hrq])

/-- C1 witness: at a concrete one-hit-per-direction input, the reciprocal pair
`("P1", "G1")` is emitted. -/
theorem reciprocity_of_resolver_witness :
    ∃ p ∈ reciprocal_merge
        (best_hit_index [(⟨"P1", "G1", 99, 8, 8, 8, 0, 95, 100⟩ : Hit)])
        (best_hit_index [(⟨"G1", "P1", 99, 8, 8, 8, 0, 95, 100⟩ : Hit)]),
      p.1.qseqid = "P1" ∧ p.1.sseqid = "G1" := by
  refine (reciprocity_of_resolver
      [(⟨"P1", "G1", 99, 8, 8, 8, 0, 95, 100⟩ : Hit)]
      [(⟨"G1", "P1", 99, 8, 8, 8, 0, 95, 100⟩ : Hit)]).2 "P1" "G1" ?_ ?_
  · exact ⟨⟨"P1", "G1", 99, 8, 8, 8, 0, 95, 100⟩, rfl, rfl⟩
  · exact ⟨⟨"G1", "P1", 99, 8, 8, 8, 0, 95, 100⟩, rfl, rfl⟩

/-- C2: whenever the two best-hit tables each hold at most one row per query
id, the resolver's output is 1-to-1: no `a_id` (`qseqid_x`) and no `b_id`
(`sseqid_x`) value occurs in more than one emitted pair. -/
theorem resolver_one_to_one (fwd rev : List Hit)
    (hf : ((fwd.map (fun x => x.qseqid)).Nodup))
    (hr : ((rev.map (fun x => x.qseqid)).Nodup)) :
    (((reciprocal_merge fwd rev).map (fun p => p.1.qseqid)).Nodup) ∧
    (((reciprocal_merge fwd rev).map (fun p => p.1.sseqid)).Nodup) := by
  constructor
  · induction fwd with
    | nil => simp [reciprocal_merge]
    | cons ra t ih =>
      simp only [List.map_cons, List.nodup_cons] at hf
      simp only [reciprocal_merge, List.map_append]
      rw [List.nodup_append]
      refine ⟨?_, ih hf.2, ?_⟩
      · apply nodup_of_length_le_one
        rw [List.length_map, List.length_map]
        exact filter_reciprocal_length_le_one hr
      · intro x hx1 hx2
        rcases List.mem_map.1 hx1 with ⟨p1, hp1, rfl⟩
        rcases List.mem_map.1 hp1 with ⟨rb, _, rfl⟩
        rcases List.mem_map.1 hx2 with ⟨p2, hp2, heq⟩
        have hmem := (reciprocal_merge_sound hp2).1
        exact hf.1 (heq ▸ List.mem_map.2 ⟨p2.1, hmem, rfl⟩)
  · induction fwd with
    | nil => simp [reciprocal_merge]
    | cons ra t ih =>
      simp only [List.map_cons, List.nodup_cons] at hf
      simp only [reciprocal_merge, List.map_append]
      rw [List.nodup_append]
      refine ⟨?_, ih hf.2, ?_⟩
      · apply nodup_of_length_le_one
        rw [List.length_map, List.length_map]
        exact filter_reciprocal_length_le_one hr
      · intro x hx1 hx2
        rcases List.mem_map.1 hx1 with ⟨p1, hp1, rfl⟩
        rcases List.mem_map.1 hp1 with ⟨rb, hrb, rfl⟩
        rcases List.mem_filter.1 hrb with ⟨hrbmem, hrbcond⟩
        have hcond : ra.qseqid = rb.sseqid ∧ ra.sseqid = rb.qseqid := by simpa using hrbcond
        rcases List.mem_map.1 hx2 with ⟨p2, hp2, heq⟩
        rcases reciprocal_merge_sound hp2 with ⟨hm1, hm2, hm3, hm4⟩
        have hq : p2.2.qseqid = rb.qseqid := by
          rw [← hm4, ← hcond.2]
          exact heq
        have hp22 : p2.2 = rb := List.inj_on_of_nodup_map hr hm2 hrbmem hq
        have : p2.1.qseqid = ra.qseqid := by
          rw [hm3, hp22, ← hcond.1]
        exact hf.1 (this ▸ List.mem_map.2 ⟨p2.1, hm1, rfl⟩)

/-- C2 witness: at a concrete reciprocal input, both projections of the output
are duplicate-free. -/
theorem resolver_one_to_one_witness :
    (((reciprocal_merge [(⟨"P1", "G1", 99, 8, 8, 8, 0, 95, 100⟩ : Hit)]
        [(⟨"G1", "P1", 99, 8, 8, 8, 0, 95, 100⟩ : Hit)]).map (fun p => p.1.qseqid)).Nodup) ∧
    (((reciprocal_merge [(⟨"P1", "G1", 99, 8, 8, 8, 0, 95, 100⟩ : Hit)]
        [(⟨"G1", "P1", 99, 8, 8, 8, 0, 95, 100⟩ : Hit)]).map (fun p => p.1.sseqid)).Nodup) :=
  resolver_one_to_one _ _ (by decide) (by decide)

/-- Two forward hits for the same query with exactly tied bitscores,
differing in subject; the first one in aligner output order. -/
def tieHit1 : Hit := ⟨"q1", "s1", 90, 10, 10, 10, 0, 75, 100⟩

/-- The second of the two exactly-tied hits in aligner output order. -/
def tieHit2 : Hit := ⟨"q1", "s2", 90, 10, 10, 10, 0, 75, 100⟩

/-- C5 counterexample: on two exactly-tied hits for the same query, the
reduction at lines 82-83 retains the second hit in input order, not the
first: the descending `sort_values` is a reversed stable ascending sort, so
tied rows come out in reversed input order and `drop_duplicates` then keeps
what was originally the last tied row. -/
theorem best_hit_tie_keeps_last : best_hit_index [tieHit1, tieHit2] = [tieHit2] ∧
    tieHit1 ≠ tieHit2 :=
  ⟨rfl, by decide⟩

/-- C5 amended: every retained hit is one of the input hits for its query and
carries the maximum bitscore among that query's hits; the index holds at most
one row per query and covers every query that has a hit. The reduction is a
pure function of the input list, hence deterministic, but on exact bitscore
ties the retained row is not the first in input order. -/
theorem best_hit_reducer_max (rows : List Hit) :
    (∀ h ∈ best_hit_index rows,
        h ∈ rows ∧ ∀ h2 ∈ rows, h2.qseqid = h.qseqid → h2.bitscore ≤ h.bitscore) ∧
    (((best_hit_index rows).map (fun x => x.qseqid)).Nodup) ∧
    (∀ h2 ∈ rows, ∃ h ∈ best_hit_index rows, h.qseqid = h2.qseqid) := by
  refine ⟨?_, best_hit_index_nodup rows, ?_⟩
  · intro h hh
    exact ⟨mem_of_mem_best_hit_index hh,
      fun h2 hh2 hq => best_hit_index_max hh hh2 hq⟩
  · intro h2 hh2
    exact best_hit_index_complete hh2

/-- One forward hit with bitscore 50 for query `q1`. -/
def hit50 : Hit := ⟨"q1", "s1", 90, 10, 10, 10, 0, 50, 100⟩

/-- One forward hit with bitscore 75 for the same query `q1`. -/
def hit75 : Hit := ⟨"q1", "s2", 90, 10, 10, 10, 0, 75, 100⟩

/-- C5 witness: applying the amended reducer theorem at a concrete two-hit
input shows the query keeps some representative hit. -/
theorem best_hit_reducer_max_witness :
    ∃ h ∈ best_hit_index [hit50, hit75], h.qseqid = hit50.qseqid :=
  (best_hit_reducer_max [hit50, hit75]).2.2 hit50 (by simp)

/-- C8: for every column sample, an empty normalized sample classifies as
protein, and a non-empty one classifies as nucleotide (`"dna"`) exactly when
the `{A,T,G,C,N}` fraction strictly exceeds `0.85`; in particular a sample at
exactly 85 percent classifies as protein (`"prot"`). -/
theorem classifier_boundary (col : List (Option String)) :
    (sampleOf col = "" → detect_seq_type col = "prot") ∧
    (sampleOf col ≠ "" →
      ((detect_seq_type col = "dna" ↔
          ((dnaCount (sampleOf col) : ℚ) / (((sampleOf col).length : ℚ)) > 85 / 100)) ∧
       (((dnaCount (sampleOf col) : ℚ) / (((sampleOf col).length : ℚ)) = 85 / 100) →
          detect_seq_type col = "prot"))) := by
  constructor
  · intro h
    simp [detect_seq_type, h]
  · intro h
    constructor
    · simp only [detect_seq_type]
      rw [if_neg h]
      by_cases hc : ((dnaCount (sampleOf col) : ℚ) / (((sampleOf col).length : ℚ)) > 85 / 100)
      · rw [if_pos hc]
        exact iff_of_true rfl hc
      · rw [if_neg hc]
        exact iff_of_false (by decide) hc
    · intro heq
      simp only [detect_seq_type]
      rw [if_neg h, if_neg (by rw [heq]; exact lt_irrefl _)]

/-- C8 witness: a 20-character sample with 17 `{A,T,G,C,N}` characters (exactly
85 percent) classifies as protein, and an all-missing column classifies as
protein. -/
theorem classifier_boundary_witness :
    detect_seq_type [some "ATGCATGCATGCATGCAXYZ"] = "prot" ∧
    detect_seq_type [] = "prot" := by
  constructor
  · apply ((classifier_boundary [some "ATGCATGCATGCATGCAXYZ"]).2 (by decide)).2
    have h2 : dnaCount (sampleOf [some "ATGCATGCATGCATGCAXYZ"]) = 17 := rfl
    have h3 : (sampleOf [some "ATGCATGCATGCATGCAXYZ"]).length = 20 := rfl
    rw [h2, h3]
    norm_num
  · exact (classifier_boundary []).1 rfl

/-- A forward best hit `P1 → G1`. -/
def fwdHit : Hit := ⟨"P1", "G1", 99, 8, 8, 8, 0, 95, 100⟩

/-- A reverse best hit `G1 → P1`, reciprocal to `fwdHit`. -/
def revHitMatch : Hit := ⟨"G1", "P1", 99, 8, 8, 8, 0, 95, 100⟩

/-- A reverse best hit `G1 → P2`, not reciprocal to `fwdHit`. -/
def revHitMismatch : Hit := ⟨"G1", "P2", 99, 8, 8, 8, 0, 95, 100⟩

/-- A forward hit whose subject length (`slen`, the output's `len_b`) is 0
and whose query length (`len_a`) is 100. -/
def zeroLenFwd : Hit := ⟨"P1", "G1", 99, 8, 100, 0, 0, 95, 100⟩

/-- A reverse hit paired with `zeroLenFwd` in the merge. -/
def zeroLenRev : Hit := ⟨"G1", "P1", 99, 8, 0, 100, 0, 95, 100⟩

/-- C3 counterexample: on a merged pair with `len_a = 100` and `len_b = 0`
the computed `len_ratio` is silently `+inf` — a plain float infinity, not the
NaN marker and not any flagged error value; no guard exists at line 95. -/
theorem len_ratio_zero_is_inf :
    FinalRow.len_b (mkFinalRow (zeroLenFwd, zeroLenRev)) = 0 ∧
    FinalRow.len_ratio (mkFinalRow (zeroLenFwd, zeroLenRev)) = PdFloat.inf ∧
    PdFloat.inf ≠ PdFloat.nan := by
  refine ⟨rfl, ?_, by decide⟩
  show pd_div (100 : ℚ) 0 = PdFloat.inf
  rfl

/-- C3 amended: for every merged pair with `len_b = 0` and positive `len_a`,
the metric computation does not crash — it totally evaluates — but the
resulting `len_ratio` is the silent float infinity rather than a flagged
error/sentinel value. -/
theorem len_ratio_zero_amended (p : Hit × Hit) (h0 : p.1.slen = 0)
    (hpos : 0 < p.1.qlen) :
    FinalRow.len_b (mkFinalRow p) = 0 ∧
    FinalRow.len_ratio (mkFinalRow p) = PdFloat.inf := by
  constructor
  · simpa [mkFinalRow] using h0
  · have hcast0 : ((p.1.slen : ℚ)) = 0 := by rw [h0]; norm_num
    have hcastpos : (0 : ℚ) < (p.1.qlen : ℚ) := by exact_mod_cast hpos
    simp [mkFinalRow, pd_div, hcast0, hcastpos]

/-- C3 amended witness. -/
theorem len_ratio_zero_amended_witness :
    FinalRow.len_b (mkFinalRow (zeroLenFwd, zeroLenRev)) = 0 ∧
    FinalRow.len_ratio (mkFinalRow (zeroLenFwd, zeroLenRev)) = PdFloat.inf :=
  len_ratio_zero_amended (zeroLenFwd, zeroLenRev) rfl (by decide)

/-- C4 counterexample: with one non-reciprocal hit per direction the
reciprocal merge is empty, and the run ends by `sys.exit(0)` (modelled
`RunOutcome.success none`) without reaching `final.to_csv`: it terminates
successfully but writes no output file at all, not even a header-only one. -/
theorem empty_result_writes_no_file :
    reciprocal_merge (best_hit_index [fwdHit]) (best_hit_index [revHitMismatch]) = [] ∧
    run_after_search ⟨0, [fwdHit]⟩ ⟨0, [revHitMismatch]⟩ = RunOutcome.success none :=
  ⟨rfl, rfl⟩

/-- C4 amended: whenever both directional searches produced at least one
output line and the reciprocal merge is empty, the run completes successfully
(exit status 0, after a diagnostic warning) but no output file is written:
`sys.exit(0)` at line 90 precedes `final.to_csv` at line 105. -/
theorem empty_result_amended (ra rb : SearchResult)
    (h1 : ra.stdout ≠ []) (h2 : rb.stdout ≠ [])
    (h3 : reciprocal_merge (best_hit_index ra.stdout) (best_hit_index rb.stdout) = []) :
    run_after_search ra rb = RunOutcome.success none := by
  have e1 : ra.stdout.isEmpty = false := by
    cases hs : ra.stdout with
    | nil => exact absurd hs h1
    | cons a t => rfl
  have e2 : rb.stdout.isEmpty = false := by
    cases hs : rb.stdout with
    | nil => exact absurd hs h2
    | cons a t => rfl
  simp [run_after_search, read_csv_hits, e1, e2, h3]

/-- C4 amended witness. -/
theorem empty_result_amended_witness :
    run_after_search ⟨0, [fwdHit]⟩ ⟨0, [revHitMismatch]⟩ = RunOutcome.success none :=
  empty_result_amended ⟨0, [fwdHit]⟩ ⟨0, [revHitMismatch]⟩ (by decide) (by decide) rfl

/-- C6 counterexample: both directional searches exit with status 1 (failure)
yet the run ignores the exit codes, performs reciprocal resolution on the
captured stdout, and terminates successfully with an output file — the search
invocations at lines 73 and 78 pass no `check=True` and never inspect
`returncode`. -/
theorem failed_search_still_resolves :
    run_after_search ⟨1, [fwdHit]⟩ ⟨1, [revHitMatch]⟩ =
      RunOutcome.success (some [mkFinalRow (fwdHit, revHitMatch)]) := rfl

/-- C6 amended: the outcome of the run after the searches is a function of the
captured stdout alone — a nonzero exit status of either directional search
changes nothing, so resolution proceeds on whatever (possibly partial) output
a failed search produced. Only the `makedb` steps (lines 62-63) use
`check=True` and abort on failure. -/
theorem search_exit_code_ignored (ra rb : SearchResult) :
    run_after_search ra rb = run_after_search ⟨0, ra.stdout⟩ ⟨0, rb.stdout⟩ := rfl

/-- C7: evaluating the reducer pipeline on a direction with zero aligner
output lines: `pd.read_csv` raises `EmptyDataError` (the run dies with a
traceback) even though the pure sort-and-deduplicate part of the reducer
would map an empty table to an empty index. -/
theorem empty_search_output_raises :
    read_csv_hits ([] : List Hit) = Except.error "EmptyDataError" ∧
    run_after_search ⟨0, ([] : List Hit)⟩ ⟨0, [revHitMatch]⟩ =
      RunOutcome.exception "EmptyDataError" ∧
    best_hit_index [] = [] :=
  ⟨rfl, rfl, rfl⟩

/-- The `final` row for the reciprocal pair `("P1", "G1")`. -/
def pairRowP1 : FinalRow := mkFinalRow (fwdHit, revHitMatch)

/-- C9 counterexample: a first-source table carrying its identifier value
`"P1"` twice makes the left-outer passthrough merge emit two output rows for
the single ortholog pair `("P1", "G1")`: the output is not one row per pair
when identifier values repeat. -/
theorem repeated_id_duplicates_pair_row :
    left_merge [pairRowP1] [⟨"P1", "x"⟩, ⟨"P1", "y"⟩] =
      [(pairRowP1, some "x"), (pairRowP1, some "y")] := rfl

/-- C9 amended: the left-outer join keeps every ortholog pair even when its
passthrough values are missing (each pair yields at least one output row),
and the output is exactly one row per pair — in pair order — whenever the
first-source table's identifier values are duplicate-free; a repeated
identifier value instead duplicates that pair's row. -/
theorem merger_keeps_every_pair (final : List FinalRow) (df1 : List Df1Row) :
    (∀ fr ∈ final, fr ∈ (left_merge final df1).map Prod.fst) ∧
    (((df1.map (fun r => r.id)).Nodup) →
      (left_merge final df1).map Prod.fst = final) := by
  constructor
  · intro fr hfr
    induction final with
    | nil => simp at hfr
    | cons f t ih =>
      simp only [left_merge, List.map_append, List.mem_append]
      rcases List.mem_cons.1 hfr with rfl | hfr
      · left
        by_cases he : (df1.filter (fun r => r.id == fr.a_id)).isEmpty
        · simp [he]
        · rw [if_neg he]
          rcases hm : df1.filter (fun r => r.id == fr.a_id) with _ | ⟨r, ms⟩
          · rw [hm] at he
            simp at he
          · have hrmem : r ∈ df1.filter (fun r2 => r2.id == fr.a_id) := by
              rw [hm]
              exact List.mem_cons_self _ _
            rcases List.mem_filter.1 hrmem with ⟨hrdf, hrcond⟩
            simp [List.map_map]
            exact ⟨r, hrdf, by simpa using hrcond⟩
      · right
        exact ih hfr
  · intro hnd
    induction final with
    | nil => rfl
    | cons f t ih =>
      simp only [left_merge, List.map_append]
      have hblock :
          ((let ms := df1.filter (fun r => r.id == f.a_id)
            if ms.isEmpty then [(f, (none : Option String))]
            else ms.map (fun r => (f, some r.anno))).map Prod.fst) = [f] := by
        by_cases he : (df1.filter (fun r => r.id == f.a_id)).isEmpty
        · simp [he]
        · simp only [if_neg he]
          have hle : (df1.filter (fun r => r.id == f.a_id)).length ≤ 1 :=
            filter_df1_length_le_one hnd
          have hne : (df1.filter (fun r => r.id == f.a_id)).length ≠ 0 := by
            intro h0
            exact he (List.isEmpty_iff.2 (List.length_eq_zero.1 h0))
          have hone : (df1.filter (fun r => r.id == f.a_id)).length = 1 := by omega
          rcases List.length_eq_one.1 hone with ⟨r, hr⟩
          rw [hr]
          rfl
      rw [hblock, ih]
      rfl

/-- C9 amended witness. -/
theorem merger_keeps_every_pair_witness :
    (left_merge [pairRowP1] [⟨"P1", "x"⟩]).map Prod.fst = [pairRowP1] :=
  (merger_keeps_every_pair [pairRowP1] [⟨"P1", "x"⟩]).2 (by decide)

/-- C10: the appended passthrough column order is not a function of the
merger's inputs. `anno_cols` is routed through Python's `list(set(...))`
(line 103), and string hashing — hence set iteration order — is randomized
per process: here are two admissible enumerations of the very same column
set (both duplicate-free with identical membership) that produce output
tables whose appended passthrough columns appear in different orders. -/
theorem passthrough_order_not_determined :
    set_enum_of (anno_cols "id" ["gene", "desc"] ["id", "gene", "desc", "seq"])
      ["id", "gene", "desc"] ∧
    set_enum_of (anno_cols "id" ["gene", "desc"] ["id", "gene", "desc", "seq"])
      ["id", "desc", "gene"] ∧
    merged_cols "id" "b_id" ["id", "gene", "desc"] ≠
      merged_cols "id" "b_id" ["id", "desc", "gene"] := by
  have hac : anno_cols "id" ["gene", "desc"] ["id", "gene", "desc", "seq"] =
      ["id", "gene", "desc"] := rfl
  refine ⟨⟨by decide, ?_⟩, ⟨by decide, ?_⟩, by decide⟩
  · intro x
    rw [hac]
  · intro x
    rw [hac]
    simp only [List.mem_cons, List.not_mem_nil, or_false]
    tauto

end CrossAnnotate
